import Mathlib

/-!
Verification of the client-side aggregation logic of a workout-tracking
web application: streak computation and weekly-activity stats (Dashboard),
weekly volume buckets and personal-record extraction (Progress page),
per-exercise history grouping (ExerciseDetails), the active-workout set
editor (ActiveWorkout), and the unit-conversion service (useSettings).

The functions below are shallow embeddings of the TypeScript source.
Timestamps are modelled as integers counting seconds; a calendar day is
86400 seconds (no DST in the model).  Weights are rationals (the store's
DECIMAL column), `reps` are integers; nullable columns are `Option`s.
`JavaScript` semantics that matter are modelled explicitly: `x || 0` is
`Option.getD 0`, `Math.round` rounds half toward positive infinity,
`date-fns`' `differenceInDays` truncates the day quotient toward zero,
an ES `Map` is an insertion-ordered association list, and `Array.sort`
is a stable sort for the given comparator (modelled by a stable
insertion sort).
-/

/-- Seconds in one calendar day of the model. -/
def secondsPerDay : ℤ := 86400

/-- `differenceInDays(a, b)` of date-fns: the number of full day periods
between the two instants, truncated toward zero (no DST in the model). -/
def differenceInDays (a b : ℤ) : ℤ := Int.tdiv (a - b) secondsPerDay

/-- The streak loop of `Dashboard.fetchDashboardStats`: walk the completion
timestamps (sorted descending); while the day-difference between the check
date and the workout is at most 1, count it and advance the check date,
otherwise stop. -/
def streakLoop : ℤ → List ℤ → ℕ
  | _, [] => 0
  | checkDate, w :: rest =>
    if differenceInDays checkDate w ≤ 1 then 1 + streakLoop w rest else 0

/-- `currentStreak` of `Dashboard.fetchDashboardStats`: the walk starts with
the check date at the current instant; an empty list yields 0. -/
def currentStreak (now : ℤ) (workouts : List ℤ) : ℕ := streakLoop now workouts

/-- The calendar day an instant falls on (floor division, as a local-date
rendering such as format 'yyyy-MM-dd' would group instants). -/
def calendarDay (t : ℤ) : ℤ := Int.fdiv t secondsPerDay

/-- The number of distinct calendar days carrying a completed workout. -/
def distinctWorkoutDays (workouts : List ℤ) : ℕ :=
  ((workouts.map calendarDay).dedup).length

/-- The two display units of `useSettings`. -/
inductive UnitPref
  | kg
  | lbs
deriving DecidableEq

/-- The conversion constant of `useSettings`. -/
def KG_TO_LBS : ℚ := 2.20462

/-- `Math.round` of JavaScript: round half toward positive infinity. -/
def jsRound (x : ℚ) : ℤ := ⌊x + 1 / 2⌋

/-- `convertWeight` of `SettingsProvider` (useSettings.tsx): the target unit
is the argument or, when omitted, the current preference; for `lbs` multiply
by `KG_TO_LBS`, scale by 10, `Math.round`, unscale; otherwise return the
input. -/
def convertWeight (unit : UnitPref) (weight : ℚ) (toUnit : Option UnitPref) : ℚ :=
  let targetUnit := toUnit.getD unit
  if targetUnit = UnitPref.lbs then (jsRound (weight * KG_TO_LBS * 10) : ℚ) / 10
  else weight

/-- Rounding to one decimal place, as the specification words it. -/
def roundTo1dp (x : ℚ) : ℚ := (jsRound (x * 10) : ℚ) / 10

/-- The conversion as the specification words it: for target `lbs`, multiply
by 2.20462 and round to one decimal place; for target `kg` (or omitted with
current preference `kg`) return the input unchanged. -/
def convertWeightSpec (unit : UnitPref) (weight : ℚ) (toUnit : Option UnitPref) : ℚ :=
  match toUnit.getD unit with
  | UnitPref.lbs => roundTo1dp (weight * KG_TO_LBS)
  | UnitPref.kg => weight

/-- Unit-preference initialization of `SettingsProvider`: read the persisted
value (absent is `none`); `saved || 'kg'` falls back to `"kg"` only for the
falsy values `null` and `""`, any other stored string is used as is. -/
def initUnit (saved : Option String) : String :=
  match saved with
  | none => "kg"
  | some s => if s = "" then "kg" else s

/-- One `sets` row as fetched by the Progress and ExerciseDetails queries:
nullable weight (kilograms) and nullable repetition count. -/
structure SetRow where
  weight : Option ℚ
  reps : Option ℤ
deriving DecidableEq

/-- One `workout_exercises` row with its nested exercise name (nullable
reference) and set collection, as fetched by `Progress.fetchProgressData`. -/
structure WorkoutExercise where
  exerciseName : Option String
  sets : List SetRow
deriving DecidableEq

/-- One completed workout as fetched by `Progress.fetchProgressData`
(the query filters `completed_at` non-null, so the timestamp is present). -/
structure Workout where
  completed_at : ℤ
  workout_exercises : List WorkoutExercise
deriving DecidableEq

/-- `(set.weight || 0) * (set.reps || 0)`, the volume of a single set. -/
def setVolume (s : SetRow) : ℚ := s.weight.getD 0 * ((s.reps.getD 0 : ℤ) : ℚ)

/-- Total volume of all sets of all exercise entries of one workout. -/
def workoutVolume (w : Workout) : ℚ :=
  (w.workout_exercises.map (fun we => (we.sets.map setVolume).sum)).sum

/-- Volume accumulated for loop index `i` of the weekly-volume loop of
`Progress.fetchProgressData`: the bucket spans `[now - 7i days, now - 7(i-1)
days)` and sums the volume of every workout completed inside it. -/
def weekVolumeRaw (now : ℤ) (workouts : List Workout) (i : ℤ) : ℚ :=
  let weekStart := now - i * 7 * secondsPerDay
  let weekEnd := now - (i - 1) * 7 * secondsPerDay
  (workouts.map (fun w =>
    if weekStart ≤ w.completed_at ∧ w.completed_at < weekEnd then workoutVolume w
    else 0)).sum

/-- The weekly-volume series of `Progress.fetchProgressData`: the loop runs
`i = 7` down to `0` and pushes `(weekStart, Math.round(volume))` only when
`i < 7`; the label is modelled by the bucket's start instant. -/
def weeklyVolume (now : ℤ) (workouts : List Workout) : List (ℤ × ℤ) :=
  (List.range 8).reverse.filterMap (fun i =>
    if i < 7 then
      some (now - (i : ℤ) * 7 * secondsPerDay, jsRound (weekVolumeRaw now workouts (i : ℤ)))
    else none)

/-- Lookup in an insertion-ordered association list (an ES `Map`). -/
def jmGet {κ β : Type} [DecidableEq κ] : List (κ × β) → κ → Option β
  | [], _ => none
  | p :: m, k => if p.1 = k then some p.2 else jmGet m k

/-- `Map.set`: overwrite the value of an existing key in place (keeping the
insertion order), or append a new key at the end. -/
def jmSet {κ β : Type} [DecidableEq κ] : List (κ × β) → κ → β → List (κ × β)
  | [], k, v => [(k, v)]
  | p :: m, k, v => if p.1 = k then (k, v) :: m else p :: jmSet m k v

/-- The keys of an association list, in order. -/
def jmKeys {κ β : Type} (m : List (κ × β)) : List κ := m.map Prod.fst

/-- Processing one set in the personal-record extraction of
`Progress.fetchProgressData`: coerce the weight with `|| 0` and overwrite the
exercise's map entry when the map has none yet or the weight is strictly
greater than the stored one. -/
def prStep (date : ℤ) (name : String) (m : List (String × ℚ × ℤ)) (s : SetRow) :
    List (String × ℚ × ℤ) :=
  let weight := s.weight.getD 0
  match jmGet m name with
  | none => jmSet m name (weight, date)
  | some q => if weight > q.1 then jmSet m name (weight, date) else m

/-- Processing one exercise entry: skip it when the exercise reference is
null, otherwise fold its sets. -/
def prEntry (date : ℤ) (m : List (String × ℚ × ℤ)) (we : WorkoutExercise) :
    List (String × ℚ × ℤ) :=
  match we.exerciseName with
  | none => m
  | some name => we.sets.foldl (prStep date name) m

/-- Processing one workout: fold its exercise entries, dating every update
with the workout's completion timestamp. -/
def prWorkout (m : List (String × ℚ × ℤ)) (w : Workout) : List (String × ℚ × ℤ) :=
  w.workout_exercises.foldl (prEntry w.completed_at) m

/-- The `prMap` of `Progress.fetchProgressData`: fold all fetched workouts
(most recent first) into the exercise-name-keyed map. -/
def prMap (workouts : List Workout) : List (String × ℚ × ℤ) :=
  workouts.foldl prWorkout []

/-- One entry of the personal-records output. -/
structure PersonalRecord where
  exercise : String
  weight : ℚ
  date : ℤ
deriving DecidableEq

/-- Stable insertion of `a` into `l`: `a` goes in front of the first element
`b` with `r a b`, hence after every earlier element it ties with. -/
def insBy {α : Type} (r : α → α → Bool) (a : α) : List α → List α
  | [] => [a]
  | b :: l => if r a b then a :: b :: l else b :: insBy r a l

/-- Stable insertion sort, the model of JavaScript's stable `Array.sort`. -/
def sortBy {α : Type} (r : α → α → Bool) : List α → List α
  | [] => []
  | a :: l => insBy r a (sortBy r l)

/-- The personal-records output of `Progress.fetchProgressData`: the map's
entries, sorted by weight descending (stable), truncated to the first 10. -/
def personalRecords (workouts : List Workout) : List PersonalRecord :=
  (sortBy (fun a b => decide (b.weight < a.weight))
    ((prMap workouts).map (fun p => PersonalRecord.mk p.1 p.2.1 p.2.2))).take 10

/-- All `(weight || 0, workout date)` pairs one exercise entry contributes
for the exercise called `name`, in set order. -/
def entryOccurrences (name : String) (date : ℤ) (we : WorkoutExercise) : List (ℚ × ℤ) :=
  match we.exerciseName with
  | none => []
  | some n => if n = name then we.sets.map (fun s => (s.weight.getD 0, date)) else []

/-- All `(weight || 0, workout date)` pairs logged for the exercise called
`name` across the workout list, in traversal order. -/
def occurrences (name : String) (workouts : List Workout) : List (ℚ × ℤ) :=
  workouts.flatMap (fun w => w.workout_exercises.flatMap (entryOccurrences name w.completed_at))

/-- Keep the incumbent unless the challenger's weight is strictly greater:
the specification's rule "track the maximum, ties keep the first one
encountered". -/
def prChoose (acc : Option (ℚ × ℤ)) (p : ℚ × ℤ) : Option (ℚ × ℤ) :=
  match acc with
  | none => some p
  | some q => if q.1 < p.1 then some p else some q

/-- Fold `prChoose` over a list of occurrences, starting from `acc`. -/
def firstMaxFrom (acc : Option (ℚ × ℤ)) (l : List (ℚ × ℤ)) : Option (ℚ × ℤ) :=
  l.foldl prChoose acc

/-- One `workout_exercises` row as fetched by `ExerciseDetails.fetchHistory`:
the nested workout's owner and nullable completion timestamp, and the row's
sets.  `workoutId` is the row's parent workout in the data model; the page
code never reads it. -/
structure HistoryRow where
  workoutId : ℕ
  user_id : String
  completed_at : Option ℤ
  sets : List SetRow
deriving DecidableEq

/-- The filter of `ExerciseDetails.fetchHistory`: keep rows whose workout
belongs to the requesting user and is completed. -/
def qualifyingRows (uid : String) (rows : List HistoryRow) : List HistoryRow :=
  rows.filter (fun r => decide (r.user_id = uid ∧ r.completed_at.isSome = true))

/-- The day key a history row is grouped under. -/
def rowDayKey (r : HistoryRow) : Option ℤ := r.completed_at.map calendarDay

/-- `dayMaxWeight` of `ExerciseDetails.fetchHistory` for one row: the running
maximum (starting at 0) of the row's `weight || 0` values. -/
def rowDayMax (r : HistoryRow) : ℚ :=
  r.sets.foldl (fun acc s => max acc (s.weight.getD 0)) 0

/-- `dayVolume` of `ExerciseDetails.fetchHistory` for one row. -/
def rowDayVolume (r : HistoryRow) : ℚ := (r.sets.map setVolume).sum

/-- Folding one qualifying row into the `historyMap` of
`ExerciseDetails.fetchHistory`: read the day's entry (defaulting to zeros),
take the max of the max-weights and the sum of the volumes. -/
def histStep (m : List (ℤ × ℚ × ℚ)) (r : HistoryRow) : List (ℤ × ℚ × ℚ) :=
  match r.completed_at with
  | none => m
  | some t =>
    let key := calendarDay t
    let existing := (jmGet m key).getD (0, 0)
    jmSet m key (max existing.1 (rowDayMax r), existing.2 + rowDayVolume r)

/-- The day-keyed map of `ExerciseDetails.fetchHistory`. -/
def historyMap (uid : String) (rows : List HistoryRow) : List (ℤ × ℚ × ℚ) :=
  (qualifyingRows uid rows).foldl histStep []

/-- The history series of `ExerciseDetails.fetchHistory`: the map's entries
sorted by date ascending, then `slice(-10)` keeps the last (most recent) 10. -/
def historyArray (uid : String) (rows : List HistoryRow) : List (ℤ × ℚ × ℚ) :=
  let sorted := sortBy (fun a b : ℤ × ℚ × ℚ => decide (a.1 < b.1)) (historyMap uid rows)
  sorted.drop (sorted.length - 10)

/-- `timesPerformed` of `ExerciseDetails.fetchHistory`: the length of the
filtered row list. -/
def timesPerformed (uid : String) (rows : List HistoryRow) : ℕ :=
  (qualifyingRows uid rows).length

/-- The number of distinct workouts among the qualifying rows (the data-model
notion the specification calls "number of sessions"). -/
def distinctQualifyingWorkouts (uid : String) (rows : List HistoryRow) : ℕ :=
  (((qualifyingRows uid rows).map HistoryRow.workoutId).dedup).length

/-- All sets logged for the exercise on one calendar day across the
qualifying rows, in row order. -/
def daySets (uid : String) (day : ℤ) (rows : List HistoryRow) : List SetRow :=
  (qualifyingRows uid rows).flatMap (fun r => if rowDayKey r = some day then r.sets else [])

/-- The specification's per-day maximum weight: the running maximum (from 0)
over all the day's `weight || 0` values. -/
def dayMaxSpec (uid : String) (day : ℤ) (rows : List HistoryRow) : ℚ :=
  (daySets uid day rows).foldl (fun acc s => max acc (s.weight.getD 0)) 0

/-- The specification's per-day total volume. -/
def dayVolumeSpec (uid : String) (day : ℤ) (rows : List HistoryRow) : ℚ :=
  ((daySets uid day rows).map setVolume).sum

/-- Combining one row's contribution into a day's optional map entry, as
`histStep` does through its zero-valued default for a missing day. -/
def histCombine (acc : Option (ℚ × ℚ)) (c : ℚ × ℚ) : Option (ℚ × ℚ) :=
  let e := acc.getD (0, 0)
  some (max e.1 c.1, e.2 + c.2)

/-- The `(dayMaxWeight, dayVolume)` contributions the rows of one calendar
day make, in row order. -/
def dayContributions (day : ℤ) (rows : List HistoryRow) : List (ℚ × ℚ) :=
  (rows.filter (fun r => decide (rowDayKey r = some day))).map
    (fun r => (rowDayMax r, rowDayVolume r))

/-- One set row of the active-workout editor (`ActiveWorkout`): its database
identity and its displayed set number. -/
structure EditorSet where
  id : ℕ
  set_number : ℕ
deriving DecidableEq

/-- `ActiveWorkout.addSet`: append a fresh set numbered `current count + 1`. -/
def addSet (freshId : ℕ) (sets : List EditorSet) : List EditorSet :=
  sets ++ [{ id := freshId, set_number := sets.length + 1 }]

/-- `ActiveWorkout.deleteSet`: remove the set with the given id; the
remaining sets are not renumbered. -/
def deleteSet (setId : ℕ) (sets : List EditorSet) : List EditorSet :=
  sets.filter (fun s => decide (s.id ≠ setId))

/-- The invariant claimed for an exercise entry's set collection: the set
numbers are exactly `1, 2, …, n` in order. -/
def denseSetNumbers (sets : List EditorSet) : Prop :=
  sets.map EditorSet.set_number = List.range' 1 sets.length

instance (sets : List EditorSet) : Decidable (denseSetNumbers sets) :=
  inferInstanceAs (Decidable (_ = _))

/-- Two completed workouts, each logging one Bench Press set: 120 kg on day
2, 100 kg on day 1, fetched most recent first. -/
def benchExample : List Workout :=
  [{ completed_at := 172800,
     workout_exercises :=
       [{ exerciseName := some "Bench Press", sets := [{ weight := some 120, reps := some 5 }] }] },
   { completed_at := 86400,
     workout_exercises :=
       [{ exerciseName := some "Bench Press", sets := [{ weight := some 100, reps := some 8 }] }] }]

/-- One completed workout whose only exercise has two sets with null
weights. -/
def pushupExample : List Workout :=
  [{ completed_at := 86400,
     workout_exercises :=
       [{ exerciseName := some "Pushups",
          sets := [{ weight := none, reps := some 12 }, { weight := none, reps := some 10 }] }] }]

/-- A workout completed one day before `weeklyNow` (inside the trailing,
still incomplete week) holding a single 50 kg × 10 set. -/
def weeklyNow : ℤ := 8640000

/-- The single-workout input of the weekly-volume test. -/
def weeklyExample : List Workout :=
  [{ completed_at := weeklyNow - secondsPerDay,
     workout_exercises :=
       [{ exerciseName := some "Squat", sets := [{ weight := some 50, reps := some 10 }] }] }]

/-- Two qualifying history rows of the same workout (the exercise appears as
two separate exercise entries in one completed workout of user `"u"`). -/
def twoEntryRows : List HistoryRow :=
  [{ workoutId := 1, user_id := "u", completed_at := some 86400,
     sets := [{ weight := some 40, reps := some 5 }] },
   { workoutId := 1, user_id := "u", completed_at := some 86400,
     sets := [{ weight := some 45, reps := some 3 }] }]

/-- A single qualifying history row for the membership witness of the
per-exercise history series. -/
def oneDayRows : List HistoryRow :=
  [{ workoutId := 3, user_id := "u", completed_at := some 90000,
     sets := [{ weight := some 20, reps := some 5 }, { weight := some 30, reps := some 4 }] }]

/-! ## Theorems -/

/-- C1: the streak computation walks the completed workouts (sorted by
completion timestamp descending) with a check date starting at the current
instant, counts a workout and advances the check date while the
day-difference is at most 1, stops at the first larger gap; on the dates
today, yesterday, three-days-ago the result is 2, and on the empty list 0. -/
theorem streak_walk_matches_spec :
    (∀ now : ℤ, currentStreak now [] = 0) ∧
    (∀ (now w : ℤ) (rest : List ℤ),
      currentStreak now (w :: rest) =
        if differenceInDays now w ≤ 1 then 1 + currentStreak w rest else 0) ∧
    (∀ now : ℤ,
      currentStreak now [now, now - secondsPerDay, now - 3 * secondsPerDay] = 2) := by
  refine ⟨fun _ => rfl, fun _ _ _ => rfl, fun now => ?_⟩
  have h1 : differenceInDays now now = 0 := by
    unfold differenceInDays
    rw [sub_self]
    decide
  have h2 : differenceInDays now (now - secondsPerDay) = 1 := by
    unfold differenceInDays
    rw [show now - (now - secondsPerDay) = secondsPerDay from by ring]
    decide
  have h3 : differenceInDays (now - secondsPerDay) (now - 3 * secondsPerDay) = 2 := by
    unfold differenceInDays
    rw [show (now - secondsPerDay) - (now - 3 * secondsPerDay) = 2 * secondsPerDay from by ring]
    decide
  norm_num [currentStreak, streakLoop, h1, h2, h3]

/-- C3 counterexample: with two completed workouts on the same calendar day
(09:00 and 10:00, checked at noon) the streak is 2 although only one
distinct calendar day carries a completed workout, so the streak exceeds the
number of distinct workout-days. -/
theorem streak_exceeds_distinct_days :
    currentStreak 43200 [7200, 3600] = 2 ∧
    distinctWorkoutDays [7200, 3600] = 1 ∧
    ¬ currentStreak 43200 [7200, 3600] ≤ distinctWorkoutDays [7200, 3600] := by
  decide

/-- C3 (amended): the walk counts qualifying workouts, not distinct
workout-days: every workout whose day-difference from the check date is at
most 1 increments the counter, so several completed workouts on one calendar
day each count; the streak is bounded by the number of workouts in the list
(not by the number of distinct days). -/
theorem streak_counts_workouts_not_days :
    (∀ (now : ℤ) (ws : List ℤ), currentStreak now ws ≤ ws.length) ∧
    currentStreak 43200 [7200, 3600] = 2 ∧
    distinctWorkoutDays [7200, 3600] = 1 := by
  refine ⟨fun now ws => ?_, by decide, by decide⟩
  show streakLoop now ws ≤ ws.length
  induction ws generalizing now with
  | nil => simp [streakLoop]
  | cons w rest ih =>
    simp only [streakLoop, List.length_cons]
    split
    · have := ih w
      omega
    · omega

/-- C2: the weekly-volume series always has exactly 7 buckets, but the
excluded bucket is the oldest one (loop index 7), not the current incomplete
week: a workout completed one day ago, holding a single 50 kg × 10 set,
contributes 500 to the sixth returned bucket (the one spanning the trailing
7 days) instead of to none of them. -/
theorem weeklyVolume_keeps_current_week :
    (∀ (now : ℤ) (ws : List Workout), (weeklyVolume now ws).length = 7) ∧
    (weeklyVolume weeklyNow weeklyExample).map Prod.snd = [0, 0, 0, 0, 0, 500, 0] := by
  constructor
  · intro now ws
    rw [weeklyVolume, show (List.range 8).reverse = [7, 6, 5, 4, 3, 2, 1, 0] from by decide]
    simp [List.filterMap]
  · rw [weeklyVolume, show (List.range 8).reverse = [7, 6, 5, 4, 3, 2, 1, 0] from by decide]
    norm_num [List.filterMap, weekVolumeRaw, weeklyExample, weeklyNow, secondsPerDay,
      workoutVolume, setVolume, jsRound]

/-- C5 counterexample: an exercise entry with two sets numbered 1 and 2
satisfies the dense-numbering invariant, but deleting the first set (a
non-last set) leaves the numbers at [2]: `deleteSet` removes the row without
renumbering, so the invariant is not preserved by every editor operation. -/
theorem deleteSet_breaks_density :
    denseSetNumbers [⟨1, 1⟩, ⟨2, 2⟩] ∧
    ¬ denseSetNumbers (deleteSet 1 [⟨1, 1⟩, ⟨2, 2⟩]) := by
  decide

/-- C5 (amended): `addSet` preserves dense 1-based numbering (it appends a
set numbered count + 1), and `deleteSet` preserves it only when the deleted
set is the trailing, highest-numbered one (with an id no other set has);
deleting any other set breaks density, as the counterexample shows. -/
theorem addSet_trailing_deleteSet_density :
    (∀ (sets : List EditorSet) (freshId : ℕ),
      denseSetNumbers sets → denseSetNumbers (addSet freshId sets)) ∧
    (∀ (sets : List EditorSet) (s : EditorSet),
      denseSetNumbers (sets ++ [s]) → (∀ t ∈ sets, t.id ≠ s.id) →
      denseSetNumbers (deleteSet s.id (sets ++ [s]))) := by
  constructor
  · intro sets f h
    unfold denseSetNumbers at h ⊢
    unfold addSet
    rw [List.map_append, h, List.length_append]
    simp [List.range'_concat, Nat.add_comm]
  · intro sets s hdense hids
    have hdel : deleteSet s.id (sets ++ [s]) = sets := by
      unfold deleteSet
      rw [List.filter_append]
      have h1 : sets.filter (fun t => decide (t.id ≠ s.id)) = sets :=
        List.filter_eq_self.mpr (fun t ht => by simpa using hids t ht)
      have h2 : [s].filter (fun t => decide (t.id ≠ s.id)) = [] := by simp
      rw [h1, h2, List.append_nil]
    rw [hdel]
    unfold denseSetNumbers at hdense ⊢
    rw [List.map_append, List.length_append] at hdense
    simp only [List.map_cons, List.map_nil, List.length_cons, List.length_nil] at hdense
    rw [show sets.length + (0 + 1) = sets.length + 1 from by omega, List.range'_concat] at hdense
    exact (List.append_inj hdense (by simp)).1

/-- C7 counterexample: a single completed workout of user "u" in which the
exercise appears as two separate exercise entries yields two qualifying
rows, and `timesPerformed` counts both, although only one distinct workout
is involved. -/
theorem timesPerformed_double_counts_entries :
    timesPerformed "u" twoEntryRows = 2 ∧
    distinctQualifyingWorkouts "u" twoEntryRows = 1 ∧
    ¬ timesPerformed "u" twoEntryRows = distinctQualifyingWorkouts "u" twoEntryRows := by
  decide

/-- C7 (amended): the "number of sessions" statistic is the number of
qualifying workout-exercise rows (completed workouts of the requesting user
containing the exercise), not of distinct workouts: distinct workouts never
exceed it, and one workout with the exercise as two entries contributes 2. -/
theorem timesPerformed_counts_rows :
    (∀ (uid : String) (rows : List HistoryRow),
      timesPerformed uid rows = (qualifyingRows uid rows).length) ∧
    (∀ (uid : String) (rows : List HistoryRow),
      distinctQualifyingWorkouts uid rows ≤ timesPerformed uid rows) ∧
    timesPerformed "u" twoEntryRows = 2 ∧
    distinctQualifyingWorkouts "u" twoEntryRows = 1 := by
  refine ⟨fun _ _ => rfl, fun uid rows => ?_, by decide, by decide⟩
  unfold distinctQualifyingWorkouts timesPerformed
  have h := ((qualifyingRows uid rows).map HistoryRow.workoutId).dedup_sublist.length_le
  simpa using h

/-- C8: `convertWeight` agrees everywhere with the specification's wording
(multiply by 2.20462 and round to one decimal place for target lbs; identity
for target kg, or target omitted with preference kg); in particular 100 kg
converts to 220.5 lbs and 0 kg to 0 lbs. -/
theorem convertWeight_matches_spec :
    (∀ (u : UnitPref) (w : ℚ) (t : Option UnitPref),
      convertWeight u w t = convertWeightSpec u w t) ∧
    (∀ (u : UnitPref) (w : ℚ), convertWeight u w (some UnitPref.kg) = w) ∧
    (∀ w : ℚ, convertWeight UnitPref.kg w none = w) ∧
    (∀ u : UnitPref, convertWeight u 100 (some UnitPref.lbs) = 220.5) ∧
    (∀ u : UnitPref, convertWeight u 0 (some UnitPref.lbs) = 0) := by
  refine ⟨?_, ?_, ?_, ?_, ?_⟩
  · intro u w t
    unfold convertWeight convertWeightSpec roundTo1dp
    cases h : t.getD u <;> simp [h, mul_assoc]
  · intro u w
    simp [convertWeight]
  · intro w
    simp [convertWeight]
  · intro u
    norm_num [convertWeight, jsRound, KG_TO_LBS]
  · intro u
    norm_num [convertWeight, jsRound, KG_TO_LBS]

/-- C9: initialization reads `saved || 'kg'`: absent and empty stored values
fall back to "kg" and "lbs" is kept, but any other stored string — here
"pounds" — is adopted as the preference unvalidated, a value outside the
declared kg/lbs domain, instead of falling back to "kg". -/
theorem initUnit_passes_invalid_through :
    initUnit none = "kg" ∧ initUnit (some "") = "kg" ∧
    initUnit (some "kg") = "kg" ∧ initUnit (some "lbs") = "lbs" ∧
    initUnit (some "pounds") = "pounds" ∧
    "pounds" ≠ "kg" ∧ "pounds" ≠ "lbs" := by
  decide

/-! ### Association-map helper lemmas -/

theorem jmGet_jmSet_self {κ β : Type} [DecidableEq κ] (m : List (κ × β)) (k : κ) (v : β) :
    jmGet (jmSet m k v) k = some v := by
  induction m with
  | nil => simp [jmGet, jmSet]
  | cons p m ih =>
    by_cases h : p.1 = k
    · simp [jmSet, h, jmGet]
    · simp [jmSet, h, jmGet, ih]

theorem jmGet_jmSet_other {κ β : Type} [DecidableEq κ] (m : List (κ × β)) (k k' : κ) (v : β)
    (h : k' ≠ k) : jmGet (jmSet m k v) k' = jmGet m k' := by
  have hk : ¬ (k = k') := fun e => h e.symm
  induction m with
  | nil => simp [jmGet, jmSet, hk]
  | cons p m ih =>
    by_cases hp : p.1 = k
    · have hp' : ¬ (p.1 = k') := by rw [hp]; exact hk
      simp [jmSet, hp, jmGet, hk, hp']
    · simp [jmSet, hp, jmGet, ih]

theorem mem_jmKeys_jmSet {κ β : Type} [DecidableEq κ] (m : List (κ × β)) (k a : κ) (v : β) :
    a ∈ jmKeys (jmSet m k v) ↔ a ∈ jmKeys m ∨ a = k := by
  induction m with
  | nil => simp [jmKeys, jmSet]
  | cons p m ih =>
    by_cases hp : p.1 = k
    · simp only [jmKeys] at ih ⊢
      simp [jmSet, hp]
      tauto
    · simp only [jmKeys] at ih ⊢
      simp [jmSet, hp, ih]
      tauto

theorem nodup_jmKeys_jmSet {κ β : Type} [DecidableEq κ] (m : List (κ × β)) (k : κ) (v : β)
    (h : (jmKeys m).Nodup) : (jmKeys (jmSet m k v)).Nodup := by
  induction m with
  | nil => simp [jmKeys, jmSet]
  | cons p m ih =>
    simp only [jmKeys, List.map_cons, List.nodup_cons] at h
    by_cases hp : p.1 = k
    · have he : jmSet (p :: m) k v = (k, v) :: m := by simp [jmSet, hp]
      rw [he]
      simp only [jmKeys, List.map_cons, List.nodup_cons]
      exact ⟨hp ▸ h.1, h.2⟩
    · have he : jmSet (p :: m) k v = p :: jmSet m k v := by simp [jmSet, hp]
      rw [he]
      simp only [jmKeys, List.map_cons, List.nodup_cons]
      refine ⟨fun hmem => ?_, ih h.2⟩
      rcases (mem_jmKeys_jmSet m k p.1 v).mp hmem with h1 | h1
      · exact h.1 h1
      · exact hp h1

theorem jmGet_eq_of_mem {κ β : Type} [DecidableEq κ] (m : List (κ × β)) (k : κ) (v : β)
    (hnd : (jmKeys m).Nodup) (hm : (k, v) ∈ m) : jmGet m k = some v := by
  induction m with
  | nil => simp at hm
  | cons p m ih =>
    simp only [jmKeys, List.map_cons, List.nodup_cons] at hnd
    rcases List.mem_cons.mp hm with h | h
    · rw [← h]
      simp [jmGet]
    · have hk : k ∈ jmKeys m := by
        have : (k, v).1 ∈ m.map Prod.fst := List.mem_map_of_mem Prod.fst h
        exact this
      have hp : ¬ (p.1 = k) := fun e => hnd.1 (e ▸ hk)
      simp only [jmGet, hp, if_neg]
      exact ih hnd.2 h

/-! ### Stable insertion sort helper lemmas -/

theorem mem_insBy {α : Type} (r : α → α → Bool) (a x : α) (l : List α) :
    x ∈ insBy r a l ↔ x = a ∨ x ∈ l := by
  induction l with
  | nil => simp [insBy]
  | cons b l ih =>
    by_cases h : r a b = true
    · simp [insBy, h]
    · simp only [insBy, h, if_neg, Bool.not_eq_true, List.mem_cons, ih]
      tauto

theorem length_insBy {α : Type} (r : α → α → Bool) (a : α) (l : List α) :
    (insBy r a l).length = l.length + 1 := by
  induction l with
  | nil => rfl
  | cons b l ih =>
    by_cases h : r a b = true <;> simp [insBy, h, ih]

theorem mem_sortBy {α : Type} (r : α → α → Bool) (x : α) (l : List α) :
    x ∈ sortBy r l ↔ x ∈ l := by
  induction l with
  | nil => simp [sortBy]
  | cons a l ih =>
    simp [sortBy, mem_insBy, ih]

theorem length_sortBy {α : Type} (r : α → α → Bool) (l : List α) :
    (sortBy r l).length = l.length := by
  induction l with
  | nil => rfl
  | cons a l ih => simp [sortBy, length_insBy, ih]

theorem pairwise_insBy {α : Type} (le : α → α → Prop) (r : α → α → Bool)
    (h1 : ∀ a b, r a b = true → le a b) (h2 : ∀ a b, r a b = false → le b a)
    (ht : ∀ a b c, le a b → le b c → le a c) (a : α) (l : List α)
    (hl : List.Pairwise le l) : List.Pairwise le (insBy r a l) := by
  induction l with
  | nil => simp [insBy]
  | cons b l ih =>
    rcases List.pairwise_cons.mp hl with ⟨hb, hl'⟩
    by_cases h : r a b = true
    · rw [insBy, if_pos h]
      refine List.pairwise_cons.mpr ⟨?_, hl⟩
      intro x hx
      rcases List.mem_cons.mp hx with e | hxl
      · exact e ▸ h1 a b h
      · exact ht a b x (h1 a b h) (hb x hxl)
    · have hf : r a b = false := by simpa using h
      rw [insBy, if_neg h]
      refine List.pairwise_cons.mpr ⟨?_, ih hl'⟩
      intro x hx
      rcases (mem_insBy r a x l).mp hx with e | hxl
      · exact e ▸ h2 a b hf
      · exact hb x hxl

theorem pairwise_sortBy {α : Type} (le : α → α → Prop) (r : α → α → Bool)
    (h1 : ∀ a b, r a b = true → le a b) (h2 : ∀ a b, r a b = false → le b a)
    (ht : ∀ a b c, le a b → le b c → le a c) (l : List α) :
    List.Pairwise le (sortBy r l) := by
  induction l with
  | nil => simp [sortBy]
  | cons a l ih => exact pairwise_insBy le r h1 h2 ht a (sortBy r l) ih

/-! ### Refinement of the personal-record fold -/

theorem jmGet_prStep (date : ℤ) (n k : String) (m : List (String × ℚ × ℤ)) (s : SetRow) :
    jmGet (prStep date n m s) k =
      if n = k then prChoose (jmGet m k) (s.weight.getD 0, date) else jmGet m k := by
  by_cases hnk : n = k
  · subst hnk
    rw [if_pos rfl]
    unfold prStep prChoose
    cases hq : jmGet m n with
    | none => simp [hq, jmGet_jmSet_self]
    | some q =>
      by_cases hw : q.1 < s.weight.getD 0
      · simp [hq, hw, jmGet_jmSet_self]
      · simp [hq, hw]
  · rw [if_neg hnk]
    have hkn : k ≠ n := fun e => hnk e.symm
    unfold prStep
    cases hq : jmGet m n with
    | none => simp [jmGet_jmSet_other m n k _ hkn]
    | some q =>
      by_cases hw : q.1 < s.weight.getD 0 <;>
        simp [hq, hw, jmGet_jmSet_other m n k _ hkn]

theorem jmGet_foldl_prStep (date : ℤ) (n k : String) :
    ∀ (sets : List SetRow) (m : List (String × ℚ × ℤ)),
      jmGet (sets.foldl (prStep date n) m) k =
        if n = k then firstMaxFrom (jmGet m k) (sets.map (fun s => (s.weight.getD 0, date)))
        else jmGet m k := by
  intro sets
  induction sets with
  | nil =>
    intro m
    by_cases hnk : n = k <;> simp [hnk, firstMaxFrom]
  | cons s sets ih =>
    intro m
    rw [List.foldl_cons, ih, jmGet_prStep]
    by_cases hnk : n = k
    · simp only [hnk, if_pos]
      rfl
    · simp [hnk]

theorem jmGet_prEntry (date : ℤ) (k : String) (m : List (String × ℚ × ℤ))
    (we : WorkoutExercise) :
    jmGet (prEntry date m we) k = firstMaxFrom (jmGet m k) (entryOccurrences k date we) := by
  unfold prEntry entryOccurrences
  cases hn : we.exerciseName with
  | none => simp [firstMaxFrom]
  | some n =>
    rw [jmGet_foldl_prStep]
    by_cases hnk : n = k <;> simp [hnk, firstMaxFrom]

theorem jmGet_foldl_prEntry (date : ℤ) (k : String) :
    ∀ (wes : List WorkoutExercise) (m : List (String × ℚ × ℤ)),
      jmGet (wes.foldl (prEntry date) m) k =
        firstMaxFrom (jmGet m k) (wes.flatMap (entryOccurrences k date)) := by
  intro wes
  induction wes with
  | nil => intro m; simp [firstMaxFrom]
  | cons we wes ih =>
    intro m
    rw [List.foldl_cons, ih, jmGet_prEntry, List.flatMap_cons]
    unfold firstMaxFrom
    rw [List.foldl_append]

theorem jmGet_foldl_prWorkout (k : String) :
    ∀ (ws : List Workout) (m : List (String × ℚ × ℤ)),
      jmGet (ws.foldl prWorkout m) k = firstMaxFrom (jmGet m k) (occurrences k ws) := by
  intro ws
  induction ws with
  | nil => intro m; simp [occurrences, firstMaxFrom]
  | cons w ws ih =>
    intro m
    rw [List.foldl_cons, ih]
    show firstMaxFrom (jmGet (w.workout_exercises.foldl (prEntry w.completed_at) m) k) _ = _
    rw [jmGet_foldl_prEntry]
    unfold occurrences firstMaxFrom
    rw [List.flatMap_cons, List.foldl_append]

theorem jmGet_prMap (ws : List Workout) (k : String) :
    jmGet (prMap ws) k = firstMaxFrom none (occurrences k ws) := by
  unfold prMap
  rw [jmGet_foldl_prWorkout]
  rfl

/-! ### The first-maximum fold -/

theorem prChoose_none (p : ℚ × ℤ) : prChoose none p = some p := rfl

theorem prChoose_some (q p : ℚ × ℤ) :
    prChoose (some q) p = if q.1 < p.1 then some p else some q := rfl

theorem firstMaxFrom_cons (acc : Option (ℚ × ℤ)) (p : ℚ × ℤ) (l : List (ℚ × ℤ)) :
    firstMaxFrom acc (p :: l) = firstMaxFrom (prChoose acc p) l := rfl

theorem firstMaxFrom_append (acc : Option (ℚ × ℤ)) (l1 l2 : List (ℚ × ℤ)) :
    firstMaxFrom acc (l1 ++ l2) = firstMaxFrom (firstMaxFrom acc l1) l2 := by
  unfold firstMaxFrom
  rw [List.foldl_append]

theorem firstMaxFrom_mem (l : List (ℚ × ℤ)) :
    ∀ (acc : Option (ℚ × ℤ)) (q : ℚ × ℤ), firstMaxFrom acc l = some q → acc = some q ∨ q ∈ l := by
  induction l with
  | nil => intro acc q h; exact Or.inl h
  | cons p l ih =>
    intro acc q h
    rw [firstMaxFrom_cons] at h
    rcases ih (prChoose acc p) q h with hc | hm
    · cases acc with
      | none =>
        right
        rw [show p = q from Option.some.inj hc]
        exact List.mem_cons_self q l
      | some a =>
        rw [prChoose_some] at hc
        by_cases hlt : a.1 < p.1
        · rw [if_pos hlt] at hc
          right
          rw [show p = q from Option.some.inj hc]
          exact List.mem_cons_self q l
        · rw [if_neg hlt] at hc
          exact Or.inl hc
    · exact Or.inr (List.mem_cons_of_mem p hm)

theorem firstMaxFrom_keep (q : ℚ × ℤ) (l : List (ℚ × ℤ)) (h : ∀ p ∈ l, p.1 ≤ q.1) :
    firstMaxFrom (some q) l = some q := by
  induction l with
  | nil => rfl
  | cons p l ih =>
    rw [firstMaxFrom_cons]
    have hp : ¬ (q.1 < p.1) := not_lt.mpr (h p (List.mem_cons_self p l))
    have hstep : prChoose (some q) p = some q := by
      rw [prChoose_some, if_neg hp]
    rw [hstep]
    exact ih (fun x hx => h x (List.mem_cons_of_mem p hx))

theorem firstMaxFrom_some_ne_none (l : List (ℚ × ℤ)) :
    ∀ q : ℚ × ℤ, firstMaxFrom (some q) l ≠ none := by
  induction l with
  | nil => intro q h; exact Option.noConfusion h
  | cons p l ih =>
    intro q
    rw [firstMaxFrom_cons, prChoose_some]
    by_cases hlt : q.1 < p.1
    · rw [if_pos hlt]; exact ih p
    · rw [if_neg hlt]; exact ih q

theorem firstMaxFrom_none_nil (l : List (ℚ × ℤ)) (h : firstMaxFrom none l = none) : l = [] := by
  cases l with
  | nil => rfl
  | cons p l =>
    rw [firstMaxFrom_cons] at h
    exact absurd h (firstMaxFrom_some_ne_none l p)

theorem firstMax_decomp :
    ∀ (l : List (ℚ × ℤ)) (p : ℚ × ℤ), firstMaxFrom none l = some p →
      ∃ l1 l2, l = l1 ++ p :: l2 ∧ (∀ q ∈ l1, q.1 < p.1) ∧ (∀ q ∈ l2, q.1 ≤ p.1) := by
  intro l
  induction l using List.reverseRecOn with
  | nil => intro p h; exact absurd h (by simp [firstMaxFrom])
  | append_singleton l x ih =>
    intro p h
    rw [firstMaxFrom_append] at h
    cases hacc : firstMaxFrom none l with
    | none =>
      have hl : l = [] := firstMaxFrom_none_nil l hacc
      rw [hacc] at h
      have hpx : x = p := Option.some.inj h
      subst hpx
      subst hl
      exact ⟨[], [], by simp, by simp, by simp⟩
    | some q =>
      rw [hacc] at h
      have hch : prChoose (some q) x = some p := h
      rw [prChoose_some] at hch
      by_cases hlt : q.1 < x.1
      · rw [if_pos hlt] at hch
        have hpx : x = p := Option.some.inj hch
        subst hpx
        rcases ih q hacc with ⟨a, b, hl, ha, hb⟩
        refine ⟨l, [], by simp, ?_, by simp⟩
        intro r hr
        rw [hl] at hr
        rcases List.mem_append.mp hr with h1 | h2
        · exact lt_trans (ha r h1) hlt
        · rcases List.mem_cons.mp h2 with e | h3
          · rw [e]; exact hlt
          · exact lt_of_le_of_lt (hb r h3) hlt
      · rw [if_neg hlt] at hch
        have hpq : q = p := Option.some.inj hch
        subst hpq
        rcases ih q hacc with ⟨a, b, hl, ha, hb⟩
        refine ⟨a, b ++ [x], by rw [hl]; simp, ha, ?_⟩
        intro r hr
        rcases List.mem_append.mp hr with h1 | h2
        · exact hb r h1
        · rw [List.mem_singleton.mp h2]
          exact not_lt.mp hlt

theorem firstMax_of_decomp (l1 l2 : List (ℚ × ℤ)) (p : ℚ × ℤ)
    (h1 : ∀ q ∈ l1, q.1 < p.1) (h2 : ∀ q ∈ l2, q.1 ≤ p.1) :
    firstMaxFrom none (l1 ++ p :: l2) = some p := by
  rw [firstMaxFrom_append, firstMaxFrom_cons]
  cases hacc : firstMaxFrom none l1 with
  | none =>
    have hch : prChoose none p = some p := rfl
    rw [hch]
    exact firstMaxFrom_keep p l2 h2
  | some q =>
    have hq : q ∈ l1 := by
      rcases firstMaxFrom_mem l1 none q hacc with h | h
      · exact absurd h (by simp)
      · exact h
    have hch : prChoose (some q) p = some p := by
      rw [prChoose_some, if_pos (h1 q hq)]
    rw [hch]
    exact firstMaxFrom_keep p l2 h2

/-! ### Key uniqueness of the fold-built maps -/

theorem nodup_jmKeys_foldl {κ β X : Type} (f : List (κ × β) → X → List (κ × β))
    (hf : ∀ m x, (jmKeys m).Nodup → (jmKeys (f m x)).Nodup) :
    ∀ (l : List X) (m : List (κ × β)), (jmKeys m).Nodup → (jmKeys (l.foldl f m)).Nodup := by
  intro l
  induction l with
  | nil => intro m h; exact h
  | cons x l ih => intro m h; exact ih (f m x) (hf m x h)

theorem nodup_jmKeys_prStep (date : ℤ) (n : String) (m : List (String × ℚ × ℤ)) (s : SetRow)
    (h : (jmKeys m).Nodup) : (jmKeys (prStep date n m s)).Nodup := by
  unfold prStep
  cases jmGet m n with
  | none => exact nodup_jmKeys_jmSet m n _ h
  | some q =>
    by_cases hw : s.weight.getD 0 > q.1
    · simpa [hw] using nodup_jmKeys_jmSet m n (s.weight.getD 0, date) h
    · simpa [hw] using h

theorem nodup_jmKeys_prEntry (date : ℤ) (m : List (String × ℚ × ℤ)) (we : WorkoutExercise)
    (h : (jmKeys m).Nodup) : (jmKeys (prEntry date m we)).Nodup := by
  unfold prEntry
  cases we.exerciseName with
  | none => exact h
  | some n => exact nodup_jmKeys_foldl _ (nodup_jmKeys_prStep date n) we.sets m h

theorem nodup_jmKeys_prMap (ws : List Workout) : (jmKeys (prMap ws)).Nodup := by
  unfold prMap
  refine nodup_jmKeys_foldl _ (fun m w hm => ?_) ws [] (by simp [jmKeys])
  exact nodup_jmKeys_foldl _ (nodup_jmKeys_prEntry w.completed_at) w.workout_exercises m hm

/-- C4: the personal-records output never exceeds 10 entries and is sorted
by weight descending; the map holds, for every exercise name logged in the
completed workouts, the maximum `weight || 0` together with the completion
date of the workout containing the first max-weight set in traversal order
(strictly greater predecessors are impossible, later ties never overwrite);
every output record is such a map entry; and on the two Bench Press example
workouts the extracted record is 120 kg dated to the second workout. -/
theorem personalRecords_max_weight_spec :
    (∀ ws : List Workout, (personalRecords ws).length ≤ 10) ∧
    (∀ ws : List Workout,
      List.Pairwise (fun a b : PersonalRecord => b.weight ≤ a.weight) (personalRecords ws)) ∧
    (∀ (ws : List Workout) (name : String) (p : ℚ × ℤ),
      jmGet (prMap ws) name = some p ↔
        ∃ l1 l2, occurrences name ws = l1 ++ p :: l2 ∧
          (∀ q ∈ l1, q.1 < p.1) ∧ (∀ q ∈ l2, q.1 ≤ p.1)) ∧
    (∀ (ws : List Workout) (r : PersonalRecord), r ∈ personalRecords ws →
      jmGet (prMap ws) r.exercise = some (r.weight, r.date)) ∧
    personalRecords benchExample = [⟨"Bench Press", 120, 172800⟩] := by
  refine ⟨?_, ?_, ?_, ?_, ?_⟩
  · intro ws
    exact List.length_take_le 10 _
  · intro ws
    unfold personalRecords
    refine List.Pairwise.sublist (List.take_sublist 10 _) ?_
    refine pairwise_sortBy _ _ ?_ ?_ ?_ _
    · intro a b h
      exact le_of_lt (of_decide_eq_true h)
    · intro a b h
      exact not_lt.mp (of_decide_eq_false h)
    · intro a b c hab hbc
      exact le_trans hbc hab
  · intro ws name p
    rw [jmGet_prMap]
    constructor
    · exact firstMax_decomp _ p
    · rintro ⟨l1, l2, hl, h1, h2⟩
      rw [hl]
      exact firstMax_of_decomp l1 l2 p h1 h2
  · intro ws r hr
    unfold personalRecords at hr
    have h1 := List.mem_of_mem_take hr
    have h2 := (mem_sortBy _ r _).mp h1
    rcases List.mem_map.mp h2 with ⟨q, hq, he⟩
    have hqe : (r.exercise, r.weight, r.date) ∈ prMap ws := by
      rw [← he]
      simpa using hq
    exact jmGet_eq_of_mem _ _ _ (nodup_jmKeys_prMap ws) hqe
  · norm_num [personalRecords, prMap, prWorkout, prEntry, prStep, jmGet, jmSet,
      benchExample, sortBy, insBy, List.take]

/-- C10: when every set logged for an exercise has null weight, the `|| 0`
coercion still enters the exercise into the record map with weight 0 dated
to the first occurrence, and the entry reaches the (top-10, sorted) output:
on the all-null-weight Pushups workout the output is the single record
`0 kg`, dated to that workout. -/
theorem personalRecords_null_weight_entry :
    (∀ (ws : List Workout) (name : String) (d : ℤ) (rest : List (ℚ × ℤ)),
      occurrences name ws = (0, d) :: rest → (∀ q ∈ rest, q.1 ≤ 0) →
      jmGet (prMap ws) name = some (0, d)) ∧
    occurrences "Pushups" pushupExample = [(0, 86400), (0, 86400)] ∧
    personalRecords pushupExample = [⟨"Pushups", 0, 86400⟩] := by
  refine ⟨?_, ?_, ?_⟩
  · intro ws name d rest hocc hrest
    rw [jmGet_prMap, hocc, firstMaxFrom_cons, prChoose_none]
    exact firstMaxFrom_keep (0, d) rest hrest
  · norm_num [occurrences, entryOccurrences, pushupExample]
  · norm_num [personalRecords, prMap, prWorkout, prEntry, prStep, jmGet, jmSet,
      pushupExample, sortBy, insBy, List.take]

/-! ### Refinement of the per-exercise history fold -/

theorem histCombine_some (a b : ℚ) (c : ℚ × ℚ) :
    histCombine (some (a, b)) c = some (max a c.1, b + c.2) := rfl

theorem histCombine_none (c : ℚ × ℚ) : histCombine none c = some (max 0 c.1, 0 + c.2) := rfl

theorem jmGet_histStep (day : ℤ) (m : List (ℤ × ℚ × ℚ)) (r : HistoryRow) :
    jmGet (histStep m r) day =
      if rowDayKey r = some day then histCombine (jmGet m day) (rowDayMax r, rowDayVolume r)
      else jmGet m day := by
  unfold histStep rowDayKey
  cases hc : r.completed_at with
  | none => simp
  | some t =>
    simp only [Option.map_some']
    by_cases hk : calendarDay t = day
    · rw [if_pos (by rw [hk]), hk, jmGet_jmSet_self]
      rfl
    · rw [if_neg (by simpa using hk)]
      exact jmGet_jmSet_other m _ day _ (fun e => hk e.symm)

theorem jmGet_foldl_histStep (day : ℤ) :
    ∀ (rows : List HistoryRow) (m : List (ℤ × ℚ × ℚ)),
      jmGet (rows.foldl histStep m) day =
        (dayContributions day rows).foldl histCombine (jmGet m day) := by
  intro rows
  induction rows with
  | nil => intro m; simp [dayContributions]
  | cons r rows ih =>
    intro m
    rw [List.foldl_cons, ih, jmGet_histStep]
    by_cases hk : rowDayKey r = some day
    · rw [if_pos hk]
      unfold dayContributions
      rw [List.filter_cons_of_pos (by simpa using hk), List.map_cons, List.foldl_cons]
    · rw [if_neg hk]
      unfold dayContributions
      rw [List.filter_cons_of_neg (by simpa using hk)]

theorem foldl_histCombine_some :
    ∀ (cs : List (ℚ × ℚ)) (a b : ℚ),
      cs.foldl histCombine (some (a, b)) =
        some ((cs.map Prod.fst).foldl max a, b + (cs.map Prod.snd).sum) := by
  intro cs
  induction cs with
  | nil => intro a b; simp
  | cons c cs ih =>
    intro a b
    rw [List.foldl_cons, histCombine_some, ih]
    simp [List.map_cons, List.foldl_cons, List.sum_cons, add_assoc]

theorem foldl_histCombine_none (c : ℚ × ℚ) (cs : List (ℚ × ℚ)) :
    (c :: cs).foldl histCombine none =
      some (((c :: cs).map Prod.fst).foldl max 0, ((c :: cs).map Prod.snd).sum) := by
  rw [List.foldl_cons, histCombine_none, foldl_histCombine_some]
  simp [List.map_cons, List.foldl_cons, List.sum_cons]

theorem foldl_max_shift :
    ∀ (l : List ℚ) (a b : ℚ), l.foldl max (max a b) = max a (l.foldl max b) := by
  intro l
  induction l with
  | nil => intro a b; rfl
  | cons c l ih =>
    intro a b
    rw [List.foldl_cons, List.foldl_cons, max_assoc, ih]

theorem foldl_weight_max_shift (sets : List SetRow) (a : ℚ) (ha : 0 ≤ a) :
    sets.foldl (fun acc s => max acc (s.weight.getD 0)) a =
      max a (sets.foldl (fun acc s => max acc (s.weight.getD 0)) 0) := by
  have h1 : ∀ b : ℚ, sets.foldl (fun acc s => max acc (s.weight.getD 0)) b
      = (sets.map (fun s => s.weight.getD 0)).foldl max b := by
    intro b
    rw [List.foldl_map]
  rw [h1, h1]
  calc (sets.map (fun s => s.weight.getD 0)).foldl max a
      = (sets.map (fun s => s.weight.getD 0)).foldl max (max a 0) := by rw [max_eq_left ha]
    _ = max a ((sets.map (fun s => s.weight.getD 0)).foldl max 0) := foldl_max_shift _ a 0

theorem dayContributions_max :
    ∀ (L : List HistoryRow) (day : ℤ) (a : ℚ), 0 ≤ a →
      ((dayContributions day L).map Prod.fst).foldl max a =
        (L.flatMap (fun r => if rowDayKey r = some day then r.sets else [])).foldl
          (fun acc s => max acc (s.weight.getD 0)) a := by
  intro L
  induction L with
  | nil => intro day a ha; simp [dayContributions]
  | cons r L ih =>
    intro day a ha
    by_cases hk : rowDayKey r = some day
    · unfold dayContributions
      rw [List.filter_cons_of_pos (by simpa using hk), List.map_cons, List.map_cons,
        List.foldl_cons, List.flatMap_cons, if_pos hk, List.foldl_append]
      have hrow : r.sets.foldl (fun acc s => max acc (s.weight.getD 0)) a
          = max a (rowDayMax r) := by
        unfold rowDayMax
        exact foldl_weight_max_shift r.sets a ha
      rw [hrow]
      have ha' : (0 : ℚ) ≤ max a (rowDayMax r) := le_trans ha (le_max_left a _)
      have hih := ih day (max a (rowDayMax r)) ha'
      unfold dayContributions at hih
      simpa using hih
    · unfold dayContributions
      rw [List.filter_cons_of_neg (by simpa using hk), List.flatMap_cons, if_neg hk,
        List.nil_append]
      exact ih day a ha

theorem dayContributions_volume :
    ∀ (L : List HistoryRow) (day : ℤ),
      ((dayContributions day L).map Prod.snd).sum =
        ((L.flatMap (fun r => if rowDayKey r = some day then r.sets else [])).map
          setVolume).sum := by
  intro L
  induction L with
  | nil => intro day; simp [dayContributions]
  | cons r L ih =>
    intro day
    by_cases hk : rowDayKey r = some day
    · unfold dayContributions
      rw [List.filter_cons_of_pos (by simpa using hk), List.map_cons, List.map_cons,
        List.sum_cons, List.flatMap_cons, if_pos hk, List.map_append, List.sum_append]
      have hih := ih day
      unfold dayContributions at hih
      rw [hih]
      rfl
    · unfold dayContributions
      rw [List.filter_cons_of_neg (by simpa using hk), List.flatMap_cons, if_neg hk,
        List.nil_append]
      exact ih day

theorem nodup_jmKeys_histStep (m : List (ℤ × ℚ × ℚ)) (r : HistoryRow)
    (h : (jmKeys m).Nodup) : (jmKeys (histStep m r)).Nodup := by
  unfold histStep
  cases r.completed_at with
  | none => exact h
  | some t => exact nodup_jmKeys_jmSet m _ _ h

theorem nodup_jmKeys_historyMap (uid : String) (rows : List HistoryRow) :
    (jmKeys (historyMap uid rows)).Nodup := by
  unfold historyMap
  exact nodup_jmKeys_foldl _ nodup_jmKeys_histStep _ [] (by simp [jmKeys])

theorem jmGet_historyMap (uid : String) (rows : List HistoryRow) (day : ℤ) :
    jmGet (historyMap uid rows) day =
      (dayContributions day (qualifyingRows uid rows)).foldl histCombine none := by
  unfold historyMap
  rw [jmGet_foldl_histStep]
  rfl

theorem historyMap_day_values (uid : String) (rows : List HistoryRow) (day : ℤ)
    (mw vol : ℚ) (h : jmGet (historyMap uid rows) day = some (mw, vol)) :
    mw = dayMaxSpec uid day rows ∧ vol = dayVolumeSpec uid day rows := by
  rw [jmGet_historyMap] at h
  cases hcs : dayContributions day (qualifyingRows uid rows) with
  | nil =>
    rw [hcs] at h
    exact absurd h (by simp)
  | cons c cs =>
    rw [hcs, foldl_histCombine_none] at h
    have h1 := Option.some.inj h
    have hfst : ((c :: cs).map Prod.fst).foldl max 0 = mw := congrArg Prod.fst h1
    have hsnd : ((c :: cs).map Prod.snd).sum = vol := congrArg Prod.snd h1
    constructor
    · rw [← hfst, ← hcs]
      unfold dayMaxSpec daySets
      exact dayContributions_max _ day 0 le_rfl
    · rw [← hsnd, ← hcs]
      unfold dayVolumeSpec daySets
      exact dayContributions_volume _ day

theorem exists_row_of_historyMap (uid : String) (rows : List HistoryRow) (day : ℤ)
    (mw vol : ℚ) (h : jmGet (historyMap uid rows) day = some (mw, vol)) :
    ∃ r ∈ qualifyingRows uid rows, rowDayKey r = some day := by
  rw [jmGet_historyMap] at h
  cases hcs : dayContributions day (qualifyingRows uid rows) with
  | nil =>
    rw [hcs] at h
    exact absurd h (by simp)
  | cons c cs =>
    have hc : c ∈ dayContributions day (qualifyingRows uid rows) := by
      rw [hcs]
      exact List.mem_cons_self c cs
    unfold dayContributions at hc
    rcases List.mem_map.mp hc with ⟨r, hr, _⟩
    have hm := List.mem_filter.mp hr
    exact ⟨r, hm.1, by simpa using hm.2⟩

/-- C6: the per-exercise history series has at most 10 entries, is sorted by
date ascending, is a suffix of the full date-sorted series (so the kept
entries are the most recent qualifying days), and every emitted entry
carries that day's maximum weight and total volume over the user's
completed-workout rows; on a one-day example the series is as computed. -/
theorem exercise_history_spec :
    (∀ (uid : String) (rows : List HistoryRow), (historyArray uid rows).length ≤ 10) ∧
    (∀ (uid : String) (rows : List HistoryRow),
      List.Pairwise (fun a b : ℤ × ℚ × ℚ => a.1 ≤ b.1) (historyArray uid rows)) ∧
    (∀ (uid : String) (rows : List HistoryRow),
      historyArray uid rows <:+
        sortBy (fun a b : ℤ × ℚ × ℚ => decide (a.1 < b.1)) (historyMap uid rows)) ∧
    (∀ (uid : String) (rows : List HistoryRow) (day : ℤ) (mw vol : ℚ),
      (day, mw, vol) ∈ historyArray uid rows →
        mw = dayMaxSpec uid day rows ∧ vol = dayVolumeSpec uid day rows ∧
        ∃ r ∈ qualifyingRows uid rows, rowDayKey r = some day) ∧
    historyArray "u" oneDayRows = [(1, 30, 220)] := by
  refine ⟨?_, ?_, ?_, ?_, ?_⟩
  · intro uid rows
    unfold historyArray
    rw [List.length_drop]
    omega
  · intro uid rows
    unfold historyArray
    refine List.Pairwise.sublist (List.drop_suffix _ _).sublist ?_
    refine pairwise_sortBy _ _ ?_ ?_ ?_ _
    · intro a b h
      exact le_of_lt (of_decide_eq_true h)
    · intro a b h
      exact not_lt.mp (of_decide_eq_false h)
    · intro a b c hab hbc
      exact le_trans hab hbc
  · intro uid rows
    exact List.drop_suffix _ _
  · intro uid rows day mw vol hmem
    unfold historyArray at hmem
    have h1 := (List.drop_suffix _ _).sublist.subset hmem
    have h2 := (mem_sortBy _ _ _).mp h1
    have h3 : jmGet (historyMap uid rows) day = some (mw, vol) :=
      jmGet_eq_of_mem _ _ _ (nodup_jmKeys_historyMap uid rows) h2
    rcases historyMap_day_values uid rows day mw vol h3 with ⟨ha, hb⟩
    exact ⟨ha, hb, exists_row_of_historyMap uid rows day mw vol h3⟩
  · have hcd : calendarDay 90000 = 1 := by decide
    norm_num [historyArray, historyMap, qualifyingRows, histStep, jmGet, jmSet,
      oneDayRows, sortBy, insBy, rowDayMax, rowDayVolume, setVolume, hcd,
      List.filter]
